import Mathlib

/-!
Shallow embedding of the Agriculture_intgration consolidation-and-transformation
pipeline: the per-row soil-nutrient categorical classifier and its
candidate-column selection (`transform_soil_nutrient_levels` in ELT.ipynb),
the multi-granularity weather merge (`transform_weather_data`), the commodity
resolver (`match_commodity_entity`), and the warehouse consolidator
(`DatabaseConsolidator` in tempCodeRunnerFile.python), together with proofs of
the specification claims about them.
-/

namespace Agri

/-- Python `s.split("_")` on the character list of `s`: splits at every
underscore; never returns an empty list. -/
def splitOnSep : List Char → List (List Char)
  | [] => [[]]
  | ch :: rest =>
    match splitOnSep rest with
    | [] => [[ch]]
    | g :: gs => if ch = '_' then [] :: g :: gs else (ch :: g) :: gs

/-- Python `max_index.split("_")[-1]` in `determine_macronutrient_level`:
the suffix of a column name after its last underscore separator. -/
def lastSuffix (s : String) : String := ⟨(splitOnSep s.data).getLastD []⟩

/-- Python `col.startswith(nutrient)`. -/
def startswith (col nutrient : String) : Bool := nutrient.data.isPrefixOf col.data

/-- `columns = [col for col in df.columns if col.startswith(nutrient)]` in
`transform_soil_nutrient_levels`: the candidate level-indicator columns of one
nutrient category, in declared column order. -/
def candidateColumns (nutrient : String) (cols : List String) : List String :=
  cols.filter fun c => startswith c nutrient

/-- Scanning step of pandas `Series.idxmax` (with its default NaN skipping):
keep the current best (label, value), replacing it only on a strictly greater
value, so the first occurrence of the maximum wins ties. -/
def idxmaxAux {α : Type} [LinearOrder α] (best : String × α) :
    List (String × Option α) → String × α
  | [] => best
  | (_, none) :: rest => idxmaxAux best rest
  | (n, some v) :: rest => idxmaxAux (if best.2 < v then (n, v) else best) rest

/-- pandas `Series.idxmax` over (label, value) pairs: the label of the first
occurrence of the maximal non-null value, `none` when every value is null. -/
def idxmax {α : Type} [LinearOrder α] :
    List (String × Option α) → Option (String × α)
  | [] => none
  | (_, none) :: rest => idxmax rest
  | (n, some v) :: rest => some (idxmaxAux (n, v) rest)

/-- `determine_macronutrient_level` (ELT.ipynb, soil-nutrient transform), as a
function of the (candidate column, row value) pairs of one row taken in
declared column order: "Unknown" when every candidate value is null, otherwise
the after-last-underscore suffix of the `idxmax` column name. (The inner
`none` branch is unreachable: `idxmax` returns a label whenever some value is
non-null; pandas would raise there, but the all-null guard fires first.) -/
def determine_macronutrient_level {α : Type} [LinearOrder α]
    (pairs : List (String × Option α)) : String :=
  if pairs.all fun p => p.2.isNone then "Unknown"
  else
    match idxmax pairs with
    | none => "Unknown"
    | some (n, _) => lastSuffix n

/-- One nutrient category's per-row classification: the classifier applied to
the category's candidate columns (declared order) paired with the row's
values, mirroring `values = row[columns]` followed by the body of
`determine_macronutrient_level`. -/
def classifyRow {α : Type} [LinearOrder α] (nutrient : String)
    (cols : List String) (row : String → Option α) : String :=
  determine_macronutrient_level
    ((candidateColumns nutrient cols).map fun c => (c, row c))

theorem idxmaxAux_spec {α : Type} [LinearOrder α] :
    ∀ (rest : List (String × Option α)) (b : String × α),
      (idxmaxAux b rest = b ∧ ∀ q ∈ rest, ∀ w, q.2 = some w → w ≤ b.2) ∨
      (∃ l₁ l₂, rest = l₁ ++ ((idxmaxAux b rest).1, some (idxmaxAux b rest).2) :: l₂
        ∧ b.2 < (idxmaxAux b rest).2
        ∧ (∀ q ∈ rest, ∀ w, q.2 = some w → w ≤ (idxmaxAux b rest).2)
        ∧ (∀ q ∈ l₁, ∀ w, q.2 = some w → w < (idxmaxAux b rest).2)) := by
  intro rest
  induction rest with
  | nil =>
    intro b
    left
    constructor
    · rfl
    · intro q hq; simp at hq
  | cons p rest ih =>
    intro b
    obtain ⟨n, v⟩ := p
    cases v with
    | none =>
      simp only [idxmaxAux]
      rcases ih b with ⟨heq, hub⟩ | ⟨l₁, l₂, hsplit, hlt, hub, hfirst⟩
      · left
        refine ⟨heq, ?_⟩
        intro q hq w hw
        rcases List.mem_cons.mp hq with h | h
        · rw [h] at hw; simp at hw
        · exact hub q h w hw
      · right
        refine ⟨(n, none) :: l₁, l₂, by rw [List.cons_append, ← hsplit], hlt, ?_, ?_⟩
        · intro q hq w hw
          rcases List.mem_cons.mp hq with h | h
          · rw [h] at hw; simp at hw
          · exact hub q h w hw
        · intro q hq w hw
          rcases List.mem_cons.mp hq with h | h
          · rw [h] at hw; simp at hw
          · exact hfirst q h w hw
    | some v =>
      simp only [idxmaxAux]
      by_cases hbv : b.2 < v
      · simp only [if_pos hbv]
        rcases ih (n, v) with ⟨heq, hub⟩ | ⟨l₁, l₂, hsplit, hlt, hub, hfirst⟩
        · right
          refine ⟨[], rest, ?_, ?_, ?_, ?_⟩
          · rw [heq]; simp
          · rw [heq]; exact hbv
          · intro q hq w hw
            rw [heq]
            rcases List.mem_cons.mp hq with h | h
            · rw [h] at hw; simp at hw; rw [← hw]
            · exact hub q h w hw
          · intro q hq; simp at hq
        · right
          have hlt' : v < (idxmaxAux (n, v) rest).2 := hlt
          refine ⟨(n, some v) :: l₁, l₂, by rw [List.cons_append, ← hsplit],
            lt_trans hbv hlt', ?_, ?_⟩
          · intro q hq w hw
            rcases List.mem_cons.mp hq with h | h
            · rw [h] at hw; simp at hw; rw [← hw]; exact le_of_lt hlt'
            · exact hub q h w hw
          · intro q hq w hw
            rcases List.mem_cons.mp hq with h | h
            · rw [h] at hw; simp at hw; rw [← hw]; exact hlt'
            · exact hfirst q h w hw
      · simp only [if_neg hbv]
        push_neg at hbv
        rcases ih b with ⟨heq, hub⟩ | ⟨l₁, l₂, hsplit, hlt, hub, hfirst⟩
        · left
          refine ⟨heq, ?_⟩
          intro q hq w hw
          rcases List.mem_cons.mp hq with h | h
          · rw [h] at hw; simp at hw; rw [← hw]; exact hbv
          · exact hub q h w hw
        · right
          refine ⟨(n, some v) :: l₁, l₂, by rw [List.cons_append, ← hsplit], hlt, ?_, ?_⟩
          · intro q hq w hw
            rcases List.mem_cons.mp hq with h | h
            · rw [h] at hw; simp at hw; rw [← hw]; exact le_of_lt (lt_of_le_of_lt hbv hlt)
            · exact hub q h w hw
          · intro q hq w hw
            rcases List.mem_cons.mp hq with h | h
            · rw [h] at hw; simp at hw; rw [← hw]; exact lt_of_le_of_lt hbv hlt
            · exact hfirst q h w hw

theorem idxmax_spec {α : Type} [LinearOrder α] :
    ∀ (pairs : List (String × Option α)) (n : String) (v : α),
      idxmax pairs = some (n, v) →
      ∃ l₁ l₂, pairs = l₁ ++ (n, some v) :: l₂
        ∧ (∀ q ∈ pairs, ∀ w, q.2 = some w → w ≤ v)
        ∧ (∀ q ∈ l₁, ∀ w, q.2 = some w → w < v) := by
  intro pairs
  induction pairs with
  | nil => intro n v h; simp [idxmax] at h
  | cons p rest ih =>
    intro n v h
    obtain ⟨m, u⟩ := p
    cases u with
    | none =>
      simp only [idxmax] at h
      obtain ⟨l₁, l₂, hsplit, hub, hfirst⟩ := ih n v h
      refine ⟨(m, none) :: l₁, l₂, by rw [List.cons_append, ← hsplit], ?_, ?_⟩
      · intro q hq w hw
        rcases List.mem_cons.mp hq with hh | hh
        · rw [hh] at hw; simp at hw
        · exact hub q hh w hw
      · intro q hq w hw
        rcases List.mem_cons.mp hq with hh | hh
        · rw [hh] at hw; simp at hw
        · exact hfirst q hh w hw
    | some u =>
      simp only [idxmax, Option.some_inj] at h
      rcases idxmaxAux_spec rest (m, u) with ⟨heq, hub⟩ | ⟨l₁, l₂, hsplit, hlt, hub, hfirst⟩
      · rw [heq] at h
        injection h with h1 h2
        subst h1; subst h2
        refine ⟨[], rest, by simp, ?_, ?_⟩
        · intro q hq w hw
          rcases List.mem_cons.mp hq with hh | hh
          · rw [hh] at hw; simp at hw; rw [← hw]
          · exact hub q hh w hw
        · intro q hq; simp at hq
      · rw [h] at hsplit hlt hub hfirst
        refine ⟨(m, some u) :: l₁, l₂, by rw [List.cons_append, ← hsplit], ?_, ?_⟩
        · intro q hq w hw
          rcases List.mem_cons.mp hq with hh | hh
          · rw [hh] at hw; simp at hw; rw [← hw]; exact le_of_lt hlt
          · exact hub q hh w hw
        · intro q hq w hw
          rcases List.mem_cons.mp hq with hh | hh
          · rw [hh] at hw; simp at hw; rw [← hw]; exact hlt
          · exact hfirst q hh w hw

theorem idxmax_eq_none_iff {α : Type} [LinearOrder α] :
    ∀ pairs : List (String × Option α),
      idxmax pairs = none ↔ ∀ p ∈ pairs, p.2 = none := by
  intro pairs
  induction pairs with
  | nil => simp [idxmax]
  | cons p rest ih =>
    obtain ⟨m, u⟩ := p
    cases u with
    | none => simp [idxmax, ih]
    | some u => simp [idxmax]

theorem map_eq_append_cons {α β : Type} {f : α → β} :
    ∀ {l : List α} {m₁ : List β} {b : β} {m₂ : List β},
      l.map f = m₁ ++ b :: m₂ →
      ∃ l₁ x l₂, l = l₁ ++ x :: l₂ ∧ l₁.map f = m₁ ∧ f x = b ∧ l₂.map f = m₂ := by
  intro l
  induction l with
  | nil =>
    intro m₁ b m₂ h
    rw [List.map_nil] at h
    exact absurd h (by simp)
  | cons a l ih =>
    intro m₁ b m₂ h
    cases m₁ with
    | nil =>
      rw [List.map_cons, List.nil_append] at h
      injection h with h1 h2
      exact ⟨[], a, l, by simp, rfl, h1, h2⟩
    | cons b₁ m₁ =>
      rw [List.map_cons, List.cons_append] at h
      injection h with h1 h2
      obtain ⟨l₁, x, l₂, hl, hm₁, hx, hm₂⟩ := ih h2
      exact ⟨a :: l₁, x, l₂, by rw [hl, List.cons_append],
        by rw [List.map_cons, hm₁, h1], hx, hm₂⟩

/-- C2: the per-row nutrient classifier is a total function on rows: a row
whose candidate level-indicator columns are all null yields "Unknown"; a row
with at least one non-null candidate yields the after-last-underscore suffix
of the candidate column holding the row-wise maximum value, ties resolved in
favour of the first such column in declared column order (all columns of the
earlier segment hold strictly smaller values or nulls), and the selected
column always holds a non-null value. -/
theorem c2_classifier_total {α : Type} [LinearOrder α] (nutrient : String)
    (cols : List String) (row : String → Option α) :
    ((∀ c ∈ candidateColumns nutrient cols, row c = none) →
      classifyRow nutrient cols row = "Unknown")
    ∧ ((∃ c ∈ candidateColumns nutrient cols, row c ≠ none) →
      ∃ l₁ c l₂ v, candidateColumns nutrient cols = l₁ ++ c :: l₂
        ∧ row c = some v
        ∧ classifyRow nutrient cols row = lastSuffix c
        ∧ (∀ c' ∈ candidateColumns nutrient cols, ∀ w, row c' = some w → w ≤ v)
        ∧ (∀ c' ∈ l₁, ∀ w, row c' = some w → w < v)) := by
  constructor
  · intro hnull
    have hall : ((candidateColumns nutrient cols).map fun c => (c, row c)).all
        (fun p => p.2.isNone) = true := by
      rw [List.all_eq_true]
      intro p hp
      obtain ⟨c, hc, hpc⟩ := List.mem_map.mp hp
      rw [← hpc]
      simp [hnull c hc]
    simp [classifyRow, determine_macronutrient_level, hall]
  · intro hsome
    obtain ⟨c₀, hc₀, hval₀⟩ := hsome
    have hmem : (c₀, row c₀) ∈ (candidateColumns nutrient cols).map fun c => (c, row c) :=
      List.mem_map_of_mem _ hc₀
    have hnn : idxmax ((candidateColumns nutrient cols).map fun c => (c, row c)) ≠ none := by
      intro hcontra
      exact hval₀ ((idxmax_eq_none_iff _).mp hcontra (c₀, row c₀) hmem)
    obtain ⟨⟨n, v⟩, hnv⟩ := Option.ne_none_iff_exists'.mp hnn
    obtain ⟨l₁p, l₂p, hsplit, hub, hfirst⟩ := idxmax_spec _ n v hnv
    obtain ⟨l₁, x, l₂, hl, hm₁, hx, hm₂⟩ := map_eq_append_cons hsplit
    injection hx with hx1 hx2
    have hallf : ((candidateColumns nutrient cols).map fun c => (c, row c)).all
        (fun p => p.2.isNone) = false := by
      rw [List.all_eq_false]
      refine ⟨(c₀, row c₀), hmem, ?_⟩
      simp only [Option.isNone_iff_eq_none]
      simpa using hval₀
    refine ⟨l₁, x, l₂, v, hl, hx2, ?_, ?_, ?_⟩
    · simp only [classifyRow, determine_macronutrient_level, hallf, Bool.false_eq_true,
        if_false, hnv]
      rw [hx1]
    · intro c' hc' w hw
      have : (c', row c') ∈ (candidateColumns nutrient cols).map fun c => (c, row c) :=
        List.mem_map_of_mem _ hc'
      exact hub (c', row c') this w hw
    · intro c' hc' w hw
      have : (c', row c') ∈ l₁p := by
        rw [← hm₁]
        exact List.mem_map_of_mem _ hc'
      exact hfirst (c', row c') this w hw

/-- Witness for C2: a concrete all-null row on the nitrogen candidates yields
"Unknown". -/
theorem c2_witness :
    classifyRow "nitrogen" ["id", "nitrogen_low", "nitrogen_high"]
      (fun _ => (none : Option Int)) = "Unknown" :=
  (c2_classifier_total "nitrogen" ["id", "nitrogen_low", "nitrogen_high"]
    (fun _ => (none : Option Int))).1 (fun _ _ => rfl)

theorem isPrefixOf_trans :
    ∀ (a b c : List Char), a.isPrefixOf b = true → b.isPrefixOf c = true →
      a.isPrefixOf c = true := by
  intro a
  induction a with
  | nil => intro b c _ _; simp [List.isPrefixOf]
  | cons x xs ih =>
    intro b c h1 h2
    cases b with
    | nil => simp [List.isPrefixOf] at h1
    | cons y ys =>
      cases c with
      | nil => simp [List.isPrefixOf] at h2
      | cons z zs =>
        simp only [List.isPrefixOf, Bool.and_eq_true, beq_iff_eq] at h1 h2 ⊢
        exact ⟨h1.1.trans h2.1, ih ys zs h1.2 h2.2⟩

/-- C10: candidate column sets of different macro-nutrient categories
overlap: a category's candidates are exactly the columns whose name starts
with the category string, every phosphorous-named column is therefore also a
candidate of the "ph" category, and on a concrete row whose maximal "ph"
candidate is a phosphorous column the emitted "ph" label is the suffix of
that phosphorous column, not of a ph column. -/
theorem c10_ph_candidates_overlap :
    (∀ col : String, startswith col "phosphorous" = true → startswith col "ph" = true)
    ∧ "phosphorous_high" ∈ candidateColumns "ph"
        ["id", "block", "district", "ph_neutral", "phosphorous_high"]
    ∧ classifyRow "ph" ["id", "block", "district", "ph_neutral", "phosphorous_high"]
        (fun c => if c = "ph_neutral" then some (1 : Int)
                  else if c = "phosphorous_high" then some 5 else none) = "high"
    ∧ startswith "phosphorous_high" "phosphorous" = true
    ∧ lastSuffix "phosphorous_high" = "high"
    ∧ lastSuffix "ph_neutral" ≠ "high" := by
  refine ⟨?_, ?_, ?_, ?_, ?_, ?_⟩
  · intro col h
    simp only [startswith] at h ⊢
    exact isPrefixOf_trans _ _ _ (by decide) h
  · decide
  · decide
  · decide
  · decide
  · decide

/-- Witness for C10: a concrete phosphorous-named column is accepted by the
"ph" candidate filter. -/
theorem c10_witness : startswith "phosphorous_low" "ph" = true :=
  c10_ph_candidates_overlap.1 "phosphorous_low" (by decide)

/-- `self.source_databases` of `DatabaseConsolidator.__init__`: configured
source stores, logical name paired with physical file name. -/
def source_databases : List (String × String) :=
  [("crop_prices", "crop_prices_transformed.db"),
   ("soil_health", "soil_health_transformed.db"),
   ("irrigation", "irrigation_transformed.db"),
   ("crop_data", "transformed_crop_data.db"),
   ("fertilizer", "fertilizer_recommendation.db"),
   ("weather_data", "weather_data.db"),
   ("soil_types", "soil_types.db")]

/-- The configured source-store logical names. -/
def sourceLogicalNames : List String := source_databases.map Prod.fst

/-- Python `new_table_name = f"{db_name}_{table_name}"` in
`create_warehouse_database`. -/
def warehouseTableName (dbName tableName : String) : String :=
  dbName ++ "_" ++ tableName

theorem take_of_append_cons (a b t1 t2 : List Char)
    (hle : a.length ≤ b.length) (h : a ++ '_' :: t1 = b ++ '_' :: t2) :
    (b ++ ['_']).take (a.length + 1) = a ++ ['_'] := by
  have h' : (a ++ ['_']) ++ t1 = (b ++ ['_']) ++ t2 := by
    simpa using h
  have htake := congrArg (List.take (a.length + 1)) h'
  have hlen : (a ++ ['_']).length = a.length + 1 := by simp
  rw [List.take_left' hlen] at htake
  rw [List.take_append_of_le_length (by simp; omega)] at htake
  exact htake.symm

theorem underscore_key (a b t1 t2 : List Char)
    (hgood : (b ++ ['_']).take (a.length + 1) = a ++ ['_'] → a = b)
    (hgood' : (a ++ ['_']).take (b.length + 1) = b ++ ['_'] → b = a)
    (h : a ++ '_' :: t1 = b ++ '_' :: t2) : a = b ∧ t1 = t2 := by
  have hab : a = b := by
    rcases Nat.le_total a.length b.length with hle | hle
    · exact hgood (take_of_append_cons a b t1 t2 hle h)
    · exact (hgood' (take_of_append_cons b a t2 t1 hle h.symm)).symm
  subst hab
  refine ⟨rfl, ?_⟩
  have := List.append_cancel_left h
  injection this

/-- No configured logical name followed by an underscore is an initial
segment of another configured logical name followed by an underscore. -/
theorem sourceNames_separated :
    ∀ a ∈ sourceLogicalNames, ∀ b ∈ sourceLogicalNames,
      ((b.data ++ ['_']).take (a.data.length + 1) = a.data ++ ['_'] →
        a.data = b.data) := by
  decide

theorem warehouseTableName_inj (a b : String)
    (hgood : (b.data ++ ['_']).take (a.data.length + 1) = a.data ++ ['_'] →
      a.data = b.data)
    (hgood' : (a.data ++ ['_']).take (b.data.length + 1) = b.data ++ ['_'] →
      b.data = a.data)
    (t1 t2 : String) (h : warehouseTableName a t1 = warehouseTableName b t2) :
    a = b ∧ t1 = t2 := by
  have hu : ("_" : String).data = ['_'] := rfl
  have hd0 := congrArg String.data h
  simp only [warehouseTableName, String.data_append, hu, List.append_assoc,
    List.singleton_append] at hd0
  obtain ⟨h1, h2⟩ := underscore_key _ _ _ _ hgood hgood' hd0
  exact ⟨String.ext h1, String.ext h2⟩

/-- C6: the warehouse table-naming map (source logical name, original table
name) ↦ `{source}_{table}` is injective over the configured source stores:
equal produced names force equal source names and equal table names. -/
theorem c6_renaming_injective :
    ∀ s1 ∈ sourceLogicalNames, ∀ s2 ∈ sourceLogicalNames, ∀ t1 t2 : String,
      warehouseTableName s1 t1 = warehouseTableName s2 t2 → s1 = s2 ∧ t1 = t2 := by
  intro s1 h1 s2 h2 t1 t2 h
  exact warehouseTableName_inj s1 s2
    (sourceNames_separated s1 h1 s2 h2) (sourceNames_separated s2 h2 s1 h1) t1 t2 h

/-- Witness for C6: the injectivity theorem applied at a concrete configured
pair. -/
theorem c6_witness :
    ("crop_prices" : String) = "crop_prices" ∧ ("prices" : String) = "prices" :=
  c6_renaming_injective "crop_prices" (by decide) "crop_prices" (by decide)
    "prices" "prices" rfl

/-- The fixed controlled vocabulary `standard_commodities` (ELT.ipynb). -/
def standard_commodities : List String :=
  ["RICE", "WHEAT", "KHARIF SORGHUM", "RABI SORGHUM", "SORGHUM",
   "PEARL MILLET", "MAIZE", "FINGER MILLET", "BARLEY", "CHICKPEA",
   "PIGEONPEA", "MINOR PULSES", "PULSES", "GROUNDNUT", "SESAMUM",
   "LINSEED", "SUGARCANE", "COTTON", "FRUITS AND VEGETABLES", "FODDER"]

/-- Scanning step of fuzzywuzzy `process.extractOne`: keep the best-scoring
(choice, score) pair seen so far. `score` rates one candidate against the
query (the query is already applied). -/
def extractOneAux (score : String → Nat) (best : String × Nat) :
    List String → String × Nat
  | [] => best
  | c :: cs => extractOneAux score (if best.2 < score c then (c, score c) else best) cs

/-- fuzzywuzzy `process.extractOne(query, choices)`: the best-scoring choice
with its score, `none` on an empty choice list. The similarity scorer is a
parameter; every claim proved about it holds for any scorer. -/
def extractOne (score : String → Nat) (choices : List String) :
    Option (String × Nat) :=
  match choices with
  | [] => none
  | c :: cs => some (extractOneAux score (c, score c) cs)

/-- `match_commodity_entity` (ELT.ipynb). The spaCy pipeline (`nlp` plus
`.ents`) and the fuzzywuzzy scorer are external libraries, passed as the
parameters `ner` and `score`; `entities` upper-cases every extracted entity
as in `ent.text.upper()`, and the fallback path upper-cases the whole
combined string. -/
def match_commodity_entity (ner : String → List String)
    (score : String → String → Nat) (commodity variety : String) : String :=
  let combined_text := commodity ++ " " ++ variety
  let entities := (ner combined_text).map String.toUpper
  match entities with
  | e :: _ =>
    match extractOne (score e) standard_commodities with
    | some best => best.1
    | none => ""
  | [] =>
    match extractOne (score combined_text.toUpper) standard_commodities with
    | some best => best.1
    | none => ""

theorem extractOneAux_mem (score : String → Nat) :
    ∀ (cs : List String) (best : String × Nat),
      (extractOneAux score best cs).1 = best.1 ∨ (extractOneAux score best cs).1 ∈ cs := by
  intro cs
  induction cs with
  | nil => intro best; left; rfl
  | cons c cs ih =>
    intro best
    simp only [extractOneAux]
    by_cases hc : best.2 < score c
    · simp only [if_pos hc]
      rcases ih (c, score c) with h | h
      · right; exact List.mem_cons.mpr (Or.inl h)
      · right; exact List.mem_cons.mpr (Or.inr h)
    · simp only [if_neg hc]
      rcases ih best with h | h
      · left; exact h
      · right; exact List.mem_cons.mpr (Or.inr h)

theorem extractOne_mem (score : String → Nat) (choices : List String)
    (hne : choices ≠ []) :
    ∃ p, extractOne score choices = some p ∧ p.1 ∈ choices := by
  cases choices with
  | nil => exact absurd rfl hne
  | cons c cs =>
    refine ⟨extractOneAux score (c, score c) cs, rfl, ?_⟩
    rcases extractOneAux_mem score cs (c, score c) with h | h
    · exact List.mem_cons.mpr (Or.inl h)
    · exact List.mem_cons.mpr (Or.inr h)

/-- C7: for every free-text (commodity, variety) pair, under any entity
extractor and any similarity scorer, the commodity resolver returns a member
of the fixed controlled vocabulary, on both the entity path and the
whole-string fallback path; the vocabulary is non-empty. -/
theorem c7_resolver_total (ner : String → List String)
    (score : String → String → Nat) (commodity variety : String) :
    match_commodity_entity ner score commodity variety ∈ standard_commodities
    ∧ standard_commodities ≠ [] := by
  refine ⟨?_, by decide⟩
  unfold match_commodity_entity
  simp only
  generalize (ner (commodity ++ " " ++ variety)).map String.toUpper = ents
  cases ents with
  | nil =>
    obtain ⟨p, hp, hmem⟩ :=
      extractOne_mem (score (commodity ++ " " ++ variety).toUpper)
        standard_commodities (by decide)
    rw [hp]
    exact hmem
  | cons e rest =>
    obtain ⟨p, hp, hmem⟩ := extractOne_mem (score e) standard_commodities (by decide)
    show (match extractOne (score e) standard_commodities with
          | some best => best.1
          | none => "") ∈ standard_commodities
    rw [hp]
    exact hmem

/-- A timestamp split into calendar day and time of day;
`pd.to_datetime(ts).dt.date` extracts the `day` component. -/
structure Timestamp where
  day : Nat
  tod : Nat
deriving DecidableEq

/-- Chronological (lexicographic) order on timestamps. -/
def Timestamp.le (t1 t2 : Timestamp) : Bool :=
  t1.day < t2.day || (t1.day == t2.day && t1.tod ≤ t2.tod)

/-- One row of the instantaneous `current_weather` table; measurement
columns are nullable. -/
structure CurrentRow where
  location_id : Nat
  timestamp : Timestamp
  temperature_2m : Option Rat
  relative_humidity_2m : Option Rat
  wind_speed_10m : Option Rat
deriving DecidableEq

/-- One row of the `hourly_weather` table. -/
structure HourlyRow where
  location_id : Nat
  timestamp : Timestamp
  temperature_2m : Rat
deriving DecidableEq

/-- One row of the `daily_weather` table (the columns the transform reads). -/
structure DailyRow where
  location_id : Nat
  date : Nat
  temperature_2m_max : Rat
  temperature_2m_min : Rat
deriving DecidableEq

/-- A daily row extended with the two computed attributes. -/
structure DailyExt extends DailyRow where
  temperature_avg : Rat
  temperature_range : Rat
deriving DecidableEq

/-- The two column assignments opening `transform_weather_data`:
`temperature_avg = (max + min) / 2` and `temperature_range = max - min`. -/
def extendDaily (d : DailyRow) : DailyExt :=
  { d with
    temperature_avg := (d.temperature_2m_max + d.temperature_2m_min) / 2
    temperature_range := d.temperature_2m_max - d.temperature_2m_min }

/-- `hourly_data['date'] = pd.to_datetime(hourly_data['timestamp']).dt.date`. -/
def hourlyDate (r : HourlyRow) : Nat := r.timestamp.day

/-- The `groupby(['location_id', 'date'])` key of an hourly row. -/
def hourlyKey (r : HourlyRow) : Nat × Nat := (r.location_id, hourlyDate r)

/-- The group of hourly rows sharing one
`hourly_data.groupby(['location_id','date'])` key. The `mean()` over each
group is taken in `hourly_temp_avg`; pandas emits group keys in sorted
order, and key order is irrelevant to every property proved here (only key
distinctness matters), so first-occurrence order is used. -/
def hourlyGroup (hourly : List HourlyRow) (k : Nat × Nat) : List HourlyRow :=
  hourly.filter fun r => decide (hourlyKey r = k)

/-- One (key, mean temperature) pair per distinct group key. -/
def hourly_temp_avg (hourly : List HourlyRow) : List ((Nat × Nat) × Rat) :=
  ((hourly.map hourlyKey).dedup).map fun k =>
    (k, ((hourlyGroup hourly k).map fun r => r.temperature_2m).sum
          / ((hourlyGroup hourly k).length : Rat))

/-- pandas `pd.merge(left, right, on=key, how='left')`: each left row in
order, paired with every matching right row, or with `none` when no right
row matches the key. -/
def leftMerge {α β κ : Type} [DecidableEq κ] (left : List α) (right : List β)
    (kl : α → κ) (kr : β → κ) : List (α × Option β) :=
  left.flatMap fun a =>
    match right.filter fun b => decide (kr b = kl a) with
    | [] => [(a, none)]
    | m :: ms => (m :: ms).map fun b => (a, some b)

/-- pandas `GroupBy.last` on one column: the last non-null value within the
group in supplied row order, `none` when every value is null. -/
def lastNonNull {α : Type} (l : List (Option α)) : Option α :=
  (l.filterMap id).getLast?

/-- One row of `current_summary` in `transform_weather_data`. -/
structure CurrentSummary where
  location_id : Nat
  latest_temperature : Option Rat
  latest_humidity : Option Rat
  latest_wind_speed : Option Rat
deriving DecidableEq

/-- The summary row `agg` builds for one location: per-column last non-null
value over the location's current rows in supplied order. -/
def mkSummary (current : List CurrentRow) (loc : Nat) : CurrentSummary :=
  let g := current.filter fun r => decide (r.location_id = loc)
  { location_id := loc
    latest_temperature := lastNonNull (g.map fun r => r.temperature_2m)
    latest_humidity := lastNonNull (g.map fun r => r.relative_humidity_2m)
    latest_wind_speed := lastNonNull (g.map fun r => r.wind_speed_10m) }

/-- `current_data.groupby('location_id').agg(latest_temperature=(…,'last'),
latest_humidity=(…,'last'), latest_wind_speed=(…,'last'))`: one summary row
per distinct location. The preceding `pd.to_datetime` assignment only
reinterprets the timestamp column; the rows are not reordered. -/
def current_summary (current : List CurrentRow) : List CurrentSummary :=
  ((current.map fun r => r.location_id).dedup).map (mkSummary current)

/-- `transform_weather_data` (ELT.ipynb): extend the daily table with the two
computed attributes, left-merge the hourly per-day mean on
`(location_id, date)`, then left-merge the per-location latest summary on
`location_id`; the result is the `final_data` frame that is saved. -/
def transform_weather_data (current : List CurrentRow) (hourly : List HourlyRow)
    (daily : List DailyRow) :
    List ((DailyExt × Option ((Nat × Nat) × Rat)) × Option CurrentSummary) :=
  let daily_ext := daily.map extendDaily
  let combined := leftMerge daily_ext (hourly_temp_avg hourly)
    (fun d => (d.location_id, d.date)) Prod.fst
  leftMerge combined (current_summary current)
    (fun c => c.1.location_id) (fun s => s.location_id)

theorem find?_eq_head?_filter {β : Type} (p : β → Bool) :
    ∀ l : List β, l.find? p = (l.filter p).head? := by
  intro l
  induction l with
  | nil => rfl
  | cons x xs ih =>
    by_cases hx : p x = true
    · rw [List.find?_cons_of_pos _ hx, List.filter_cons_of_pos hx, List.head?_cons]
    · rw [List.find?_cons_of_neg _ (by simp [hx]), List.filter_cons_of_neg (by simp [hx]), ih]

theorem filter_key_of_nodup {β κ : Type} [DecidableEq κ] (kr : β → κ) :
    ∀ right : List β, (right.map kr).Nodup → ∀ k : κ,
      right.filter (fun b => decide (kr b = k)) = [] ∨
      ∃ b, right.filter (fun b => decide (kr b = k)) = [b] := by
  intro right
  induction right with
  | nil => intro _ k; left; rfl
  | cons x xs ih =>
    intro hnd k
    rw [List.map_cons, List.nodup_cons] at hnd
    by_cases hx : kr x = k
    · right
      refine ⟨x, ?_⟩
      rw [List.filter_cons_of_pos (by simp [hx])]
      have hrest : xs.filter (fun b => decide (kr b = k)) = [] := by
        rw [List.filter_eq_nil_iff]
        intro b hb
        simp only [decide_eq_true_eq]
        intro hbk
        exact hnd.1 (by rw [hx, ← hbk]; exact List.mem_map_of_mem kr hb)
      rw [hrest]
    · rw [List.filter_cons_of_neg (by simp [hx])]
      exact ih hnd.2 k

theorem leftMerge_of_nodup {α β κ : Type} [DecidableEq κ] (left : List α)
    (right : List β) (kl : α → κ) (kr : β → κ) (hnd : (right.map kr).Nodup) :
    leftMerge left right kl kr =
      left.map fun a => (a, right.find? fun b => decide (kr b = kl a)) := by
  induction left with
  | nil => rfl
  | cons a as ih =>
    simp only [leftMerge, List.flatMap_cons, List.map_cons] at ih ⊢
    rw [ih]
    rcases filter_key_of_nodup kr right hnd (kl a) with hfil | ⟨b, hfil⟩
    · rw [hfil]
      have : right.find? (fun b => decide (kr b = kl a)) = none := by
        rw [find?_eq_head?_filter, hfil]; rfl
      rw [this]
      rfl
    · rw [hfil]
      have : right.find? (fun b => decide (kr b = kl a)) = some b := by
        rw [find?_eq_head?_filter, hfil]; rfl
      rw [this]
      rfl

theorem leftMerge_fst_mem {α β κ : Type} [DecidableEq κ] {left : List α}
    {right : List β} {kl : α → κ} {kr : β → κ}
    {p : α × Option β} (hp : p ∈ leftMerge left right kl kr) : p.1 ∈ left := by
  unfold leftMerge at hp
  obtain ⟨a, ha, hin⟩ := List.mem_flatMap.mp hp
  rcases hcase : right.filter fun b => decide (kr b = kl a) with _ | ⟨m, ms⟩
  · rw [hcase] at hin
    simp at hin
    rw [hin]
    exact ha
  · rw [hcase] at hin
    obtain ⟨b, _, hpb⟩ := List.mem_map.mp hin
    rw [← hpb]
    exact ha

theorem leftMerge_snd_of_nodup {α β κ : Type} [DecidableEq κ] {left : List α}
    {right : List β} {kl : α → κ} {kr : β → κ} (hnd : (right.map kr).Nodup)
    {p : α × Option β} (hp : p ∈ leftMerge left right kl kr) :
    p.2 = right.find? fun b => decide (kr b = kl p.1) := by
  rw [leftMerge_of_nodup left right kl kr hnd] at hp
  obtain ⟨a, _, hpa⟩ := List.mem_map.mp hp
  rw [← hpa]

/-- C5: every output row of the weather transform satisfies
`temperature_avg = (temperature_2m_max + temperature_2m_min) / 2` and
`temperature_range = temperature_2m_max - temperature_2m_min`, exactly. -/
theorem c5_computed_attributes (current : List CurrentRow)
    (hourly : List HourlyRow) (daily : List DailyRow) :
    ∀ r ∈ transform_weather_data current hourly daily,
      r.1.1.temperature_avg
          = (r.1.1.temperature_2m_max + r.1.1.temperature_2m_min) / 2
      ∧ r.1.1.temperature_range
          = r.1.1.temperature_2m_max - r.1.1.temperature_2m_min := by
  intro r hr
  have h1 : r.1 ∈ leftMerge (daily.map extendDaily) (hourly_temp_avg hourly)
      (fun d => (d.location_id, d.date)) Prod.fst := leftMerge_fst_mem hr
  have h2 : r.1.1 ∈ daily.map extendDaily := leftMerge_fst_mem h1
  obtain ⟨d, _, hd⟩ := List.mem_map.mp h2
  rw [← hd]
  exact ⟨rfl, rfl⟩

/-- Witness for C5 at a concrete one-row daily table. -/
theorem c5_witness :
    (extendDaily ⟨1, 3, 20, 10⟩).temperature_avg
        = ((extendDaily ⟨1, 3, 20, 10⟩).temperature_2m_max
            + (extendDaily ⟨1, 3, 20, 10⟩).temperature_2m_min) / 2
    ∧ (extendDaily ⟨1, 3, 20, 10⟩).temperature_range
        = (extendDaily ⟨1, 3, 20, 10⟩).temperature_2m_max
            - (extendDaily ⟨1, 3, 20, 10⟩).temperature_2m_min :=
  c5_computed_attributes [] [] [⟨1, 3, 20, 10⟩]
    ((extendDaily ⟨1, 3, 20, 10⟩, none), none)
    (by simp [transform_weather_data, leftMerge, hourly_temp_avg, current_summary])

theorem map_key_map_mk {κ γ : Type} (mk : κ → γ) (key : γ → κ)
    (hkey : ∀ k, key (mk k) = k) :
    ∀ ls : List κ, (ls.map mk).map key = ls := by
  intro ls
  induction ls with
  | nil => rfl
  | cons x xs ih => simp only [List.map_cons, hkey, ih]

theorem hourly_temp_avg_keys_nodup (hourly : List HourlyRow) :
    ((hourly_temp_avg hourly).map Prod.fst).Nodup := by
  unfold hourly_temp_avg
  rw [map_key_map_mk _ _ (fun k => rfl)]
  exact List.nodup_dedup _

/-- C4: the hourly-to-daily merge is a left join keyed by (location_id,
date): the merged output has exactly one row per daily row, positionally (no
daily row dropped, none duplicated), and a daily row whose key matches no
group of the aggregated hourly data carries `none` in the hourly-mean
column. -/
theorem c4_hourly_merge_left_join (hourly : List HourlyRow)
    (daily : List DailyRow) :
    (leftMerge (daily.map extendDaily) (hourly_temp_avg hourly)
        (fun d => (d.location_id, d.date)) Prod.fst).length = daily.length
    ∧ ∀ (i : Nat) (d : DailyRow), daily[i]? = some d →
        ∃ r, (leftMerge (daily.map extendDaily) (hourly_temp_avg hourly)
            (fun d => (d.location_id, d.date)) Prod.fst)[i]? = some r
          ∧ r.1 = extendDaily d
          ∧ ((∀ e ∈ hourly_temp_avg hourly, e.1 ≠ (d.location_id, d.date)) →
              r.2 = none) := by
  have hnd := hourly_temp_avg_keys_nodup hourly
  rw [leftMerge_of_nodup _ _ _ _ hnd]
  constructor
  · simp
  · intro i d hd
    refine ⟨(extendDaily d, (hourly_temp_avg hourly).find? fun e =>
        decide (e.1 = (d.location_id, d.date))), ?_, rfl, ?_⟩
    · rw [List.getElem?_map, List.getElem?_map, hd]
      rfl
    · intro hnone
      show (hourly_temp_avg hourly).find?
          (fun e => decide (e.1 = (d.location_id, d.date))) = none
      rw [List.find?_eq_none]
      intro e he
      simp only [decide_eq_true_eq]
      exact hnone e he

/-- Witness for C4: on a one-row daily table with no hourly data, position 0
of the merged output exists and carries `none` in the hourly-mean column. -/
theorem c4_witness :
    ∃ r, (leftMerge (([⟨1, 3, 20, 10⟩] : List DailyRow).map extendDaily)
        (hourly_temp_avg []) (fun d => (d.location_id, d.date)) Prod.fst)[0]?
          = some r
      ∧ r.2 = none := by
  obtain ⟨r, h0, _, h2⟩ :=
    (c4_hourly_merge_left_join [] [⟨1, 3, 20, 10⟩]).2 0 ⟨1, 3, 20, 10⟩ rfl
  exact ⟨r, h0, h2 (by simp [hourly_temp_avg])⟩

theorem current_summary_keys_nodup (current : List CurrentRow) :
    ((current_summary current).map fun s => s.location_id).Nodup := by
  unfold current_summary
  rw [map_key_map_mk (mkSummary current) (fun s => s.location_id) (fun k => rfl)]
  exact List.nodup_dedup _

theorem find?_map_mkSummary (current : List CurrentRow) :
    ∀ ls : List Nat, ls.Nodup → ∀ loc ∈ ls,
      (ls.map (mkSummary current)).find?
        (fun s => decide (s.location_id = loc)) = some (mkSummary current loc) := by
  intro ls
  induction ls with
  | nil => intro _ loc h; simp at h
  | cons x xs ih =>
    intro hnd loc hloc
    rw [List.map_cons]
    by_cases hx : x = loc
    · subst hx
      rw [List.find?_cons_of_pos _ (by simp [mkSummary])]
    · rw [List.find?_cons_of_neg _ (by simp [mkSummary, hx])]
      rw [List.nodup_cons] at hnd
      rcases List.mem_cons.mp hloc with h | h
      · exact absurd h.symm hx
      · exact ih hnd.2 loc h

theorem find?_current_summary_not_mem (current : List CurrentRow) (loc : Nat)
    (h : loc ∉ current.map fun r => r.location_id) :
    (current_summary current).find? (fun s => decide (s.location_id = loc)) = none := by
  rw [List.find?_eq_none]
  intro s hs
  unfold current_summary at hs
  obtain ⟨l, hl, hsl⟩ := List.mem_map.mp hs
  simp only [decide_eq_true_eq]
  intro hcontra
  apply h
  have hloc : l = loc := by rw [← hcontra, ← hsl]; simp [mkSummary]
  rw [← hloc]
  exact List.mem_dedup.mp hl

/-- C3 (amended): in the transform's output, the three latest-snapshot
attributes attached to a row are those of `mkSummary` for the row's own
location: for each column separately, the last non-null value among the
location's instantaneous rows in supplied input order (which is the
greatest-timestamp reading only when the rows arrive chronologically sorted,
not regardless of supplied order); a location absent from the instantaneous
table yields `none`; and all output rows of one location carry the same
latest-snapshot values. -/
theorem c3_latest_by_supplied_order (current : List CurrentRow)
    (hourly : List HourlyRow) (daily : List DailyRow) :
    ∀ r ∈ transform_weather_data current hourly daily,
      (r.1.1.location_id ∈ current.map (fun c => c.location_id) →
        r.2 = some (mkSummary current r.1.1.location_id))
      ∧ (r.1.1.location_id ∉ current.map (fun c => c.location_id) → r.2 = none)
      ∧ (∀ r' ∈ transform_weather_data current hourly daily,
          r'.1.1.location_id = r.1.1.location_id → r'.2 = r.2) := by
  have hnd := current_summary_keys_nodup current
  intro r hr
  have hr2 : r ∈ leftMerge
      (leftMerge (daily.map extendDaily) (hourly_temp_avg hourly)
        (fun d => (d.location_id, d.date)) Prod.fst)
      (current_summary current)
      (fun c => c.1.location_id) (fun s => s.location_id) := hr
  have hsnd : r.2 = (current_summary current).find?
      (fun s => decide (s.location_id = r.1.1.location_id)) :=
    leftMerge_snd_of_nodup hnd hr2
  refine ⟨?_, ?_, ?_⟩
  · intro hmem
    rw [hsnd]
    unfold current_summary
    exact find?_map_mkSummary current _ (List.nodup_dedup _) _
      (List.mem_dedup.mpr hmem)
  · intro hnmem
    rw [hsnd]
    exact find?_current_summary_not_mem current _ hnmem
  · intro r' hr' heq
    have hr2' : r' ∈ leftMerge
        (leftMerge (daily.map extendDaily) (hourly_temp_avg hourly)
          (fun d => (d.location_id, d.date)) Prod.fst)
        (current_summary current)
        (fun c => c.1.location_id) (fun s => s.location_id) := hr'
    have hsnd' : r'.2 = (current_summary current).find?
        (fun s => decide (s.location_id = r'.1.1.location_id)) :=
      leftMerge_snd_of_nodup hnd hr2'
    rw [hsnd, hsnd', heq]

/-- Concrete instantaneous rows for location 1, supplied out of
chronological order: the day-5 reading (temperature 5) comes first, the
day-3 reading (temperature 7) last. -/
def curEx : List CurrentRow :=
  [⟨1, ⟨5, 0⟩, some 5, some 50, some 3⟩,
   ⟨1, ⟨3, 0⟩, some 7, some 60, some 4⟩]

/-- Concrete one-row daily table for location 1. -/
def dailyEx : List DailyRow := [⟨1, 3, 20, 10⟩]

/-- C3 counterexample: with the instantaneous rows of `curEx` supplied out
of chronological order, every output row carries latest_temperature 7 (the
last supplied reading), while the unique greatest-timestamp reading has
temperature 5; so the output does not equal the greatest-timestamp reading's
value, refuting C3 as stated. -/
theorem c3_counterexample :
    ((transform_weather_data curEx [] dailyEx).map fun r =>
        r.2.map fun s => s.latest_temperature) = [some (some 7)]
    ∧ ((curEx.filter fun r => curEx.all fun s =>
        Timestamp.le s.timestamp r.timestamp).map fun r => r.temperature_2m)
      = [some 5]
    ∧ ¬ (some (some (7 : Rat)) = some (some (5 : Rat))) := by
  refine ⟨?_, ?_, by norm_num⟩
  · simp [transform_weather_data, leftMerge, hourly_temp_avg, current_summary,
      curEx, dailyEx, mkSummary, lastNonNull, extendDaily]
  · simp [curEx, Timestamp.le]

/-- Witness for the amended C3 at the concrete input `curEx`/`dailyEx`: the
single output row carries exactly the per-location summary of location 1. -/
theorem c3_witness :
    (((extendDaily ⟨1, 3, 20, 10⟩, none), some (mkSummary curEx 1)) :
        (DailyExt × Option ((Nat × Nat) × Rat)) × Option CurrentSummary).2
      = some (mkSummary curEx 1) :=
  ((c3_latest_by_supplied_order curEx [] dailyEx)
    ((extendDaily ⟨1, 3, 20, 10⟩, none), some (mkSummary curEx 1))
    (by simp [transform_weather_data, leftMerge, hourly_temp_avg,
      current_summary, curEx, dailyEx, extendDaily, mkSummary, lastNonNull])).1
    (by simp [curEx, extendDaily])

/-- SQLite storage-class abstraction of one cell value. -/
inductive SQLiteValue : Type
  | intV : Int → SQLiteValue
  | realV : Rat → SQLiteValue
  | textV : String → SQLiteValue
  | nullV : SQLiteValue
deriving DecidableEq

/-- One table of a source store: its name, its declared schema — the ordered
(column name, declared type) pairs recorded in the table's CREATE TABLE
statement in sqlite_master — and its rows. -/
structure SourceTable where
  name : String
  cols : List (String × String)
  rows : List (List SQLiteValue)
deriving DecidableEq

/-- A source store that could be opened: its tables in
`sqlite_master` order, as enumerated by `get_table_info`. -/
structure SourceDB where
  tables : List SourceTable
deriving DecidableEq

/-- One table of the consolidated warehouse. -/
structure WTable where
  name : String
  cols : List (String × String)
  rows : List (List SQLiteValue)
deriving DecidableEq

def SQLiteValue.isText : SQLiteValue → Bool
  | textV _ => true
  | _ => false

def SQLiteValue.isReal : SQLiteValue → Bool
  | realV _ => true
  | _ => false

def SQLiteValue.isNull : SQLiteValue → Bool
  | nullV => true
  | _ => false

/-- pandas column dtypes relevant to `read_sql_query` over SQLite storage
classes. -/
inductive PDType : Type
  | int64
  | float64
  | object
deriving DecidableEq

/-- The dtype `pd.read_sql_query` infers for one column of SQLite values:
object for an empty, text-bearing or all-null column; float64 when a real
appears or an integer column contains nulls; int64 for a pure integer
column. -/
def inferDType (column : List SQLiteValue) : PDType :=
  if column.isEmpty then PDType.object
  else if column.any SQLiteValue.isText then PDType.object
  else if column.all SQLiteValue.isNull then PDType.object
  else if column.any fun v => SQLiteValue.isReal v || SQLiteValue.isNull v then
    PDType.float64
  else PDType.int64

/-- The SQLite column type `DataFrame.to_sql` declares for a pandas dtype. -/
def sqlTypeOfDType : PDType → String
  | PDType.int64 => "INTEGER"
  | PDType.float64 => "REAL"
  | PDType.object => "TEXT"

/-- The values of column `i` across all rows. -/
def colValues (rows : List (List SQLiteValue)) (i : Nat) : List SQLiteValue :=
  rows.map fun r => r.getD i SQLiteValue.nullV

/-- The empty table created by `warehouse_conn.execute(schema)` after
`schema = self.get_table_schema(...)` and
`schema.replace(table_name, new_table_name, 1)`: the source's exact ordered
column names and declared types under the renamed identity. -/
def recreatedTable (dbName : String) (t : SourceTable) : WTable :=
  { name := warehouseTableName dbName t.name, cols := t.cols, rows := [] }

/-- The warehouse table after `data.to_sql(new_table_name, warehouse_conn,
if_exists='replace', index=False)`: `if_exists='replace'` drops the table
just created from the source schema and lets pandas re-create it from the
frame read by `pd.read_sql_query`, so the declared column types become the
pandas-inferred ones while names, order and rows come from the frame. -/
def copiedTable (dbName : String) (t : SourceTable) : WTable :=
  { name := warehouseTableName dbName t.name
    cols := t.cols.enum.map fun p =>
      (p.2.1, sqlTypeOfDType (inferDType (colValues t.rows p.1)))
    rows := t.rows }

/-- A concrete source table whose declared column type `to_sql` cannot
reproduce. -/
def srcT : SourceTable :=
  ⟨"prices", [("note", "VARCHAR(10)")], [[SQLiteValue.textV "hi"]]⟩

/-- C1 (code bug): copying `srcT` into the warehouse keeps the renamed
identity, the rows, and the ordered column names, and the schema statement
executed beforehand does carry the source's declared types — but the table
`to_sql(..., if_exists='replace')` leaves behind has declared type TEXT
instead of VARCHAR(10), so the claim's "same declared column types" fails on
the code. -/
theorem c1_types_not_preserved :
    (copiedTable "crop_prices" srcT).name = warehouseTableName "crop_prices" "prices"
    ∧ (copiedTable "crop_prices" srcT).rows = srcT.rows
    ∧ (copiedTable "crop_prices" srcT).cols.map Prod.fst = srcT.cols.map Prod.fst
    ∧ (recreatedTable "crop_prices" srcT).cols = srcT.cols
    ∧ (copiedTable "crop_prices" srcT).cols = [("note", "TEXT")]
    ∧ (copiedTable "crop_prices" srcT).cols ≠ srcT.cols := by
  refine ⟨rfl, rfl, rfl, rfl, rfl, by decide⟩

/-- The tables one configured store entry contributes to the warehouse: a
store whose file is missing (`none`, after `source_path.exists()` fails) is
skipped with a warning and contributes nothing; each table of a present
store is copied unless its copy raises, in which case the per-table `except`
logs the error and skips only that table. Environmental copy failures (disk
errors, malformed schema, …) are modelled by the `faults` predicate. -/
def processStore (faults : String → String → Bool)
    (entry : String × Option SourceDB) : List WTable :=
  match entry.2 with
  | none => []
  | some db => db.tables.filterMap fun t =>
      if faults entry.1 t.name then none else some (copiedTable entry.1 t)

/-- `create_warehouse_database`: `setupOk` models unlinking any pre-existing
warehouse artifact and `sqlite3.connect` on the warehouse target succeeding;
when that fails the outer `except` aborts the run producing no warehouse;
otherwise every configured store is processed in order, store and table
failures notwithstanding. -/
def create_warehouse_database (setupOk : Bool)
    (stores : List (String × Option SourceDB))
    (faults : String → String → Bool) : Option (List WTable) :=
  if setupOk then some (stores.flatMap (processStore faults)) else none

/-- One full consolidation run: any pre-existing warehouse artifact `prior`
is deleted before the rebuild (`warehouse_path.unlink()`), so the produced
warehouse never depends on it. -/
def runConsolidation (_prior : Option (List WTable)) (setupOk : Bool)
    (stores : List (String × Option SourceDB))
    (faults : String → String → Bool) : Option (List WTable) :=
  create_warehouse_database setupOk stores faults

/-- Store entry transformer removing every table named `tn` from the store
with logical name `s`. -/
def dropTable (s tn : String) (e : String × Option SourceDB) :
    String × Option SourceDB :=
  if e.1 = s then
    (e.1, e.2.map fun db => ⟨db.tables.filter fun t => decide (t.name ≠ tn)⟩)
  else e

theorem flatMap_congr_map {α β γ : Type} (f : α → List γ) (g : β → List γ)
    (h : α → β) : ∀ l : List α, (∀ e ∈ l, f e = g (h e)) →
      l.flatMap f = (l.map h).flatMap g := by
  intro l
  induction l with
  | nil => intro _; rfl
  | cons a as ih =>
    intro hall
    rw [List.map_cons, List.flatMap_cons, List.flatMap_cons,
      hall a (List.mem_cons_self a as), ih fun e he => hall e (List.mem_cons_of_mem a he)]

theorem filterMap_fault_filter (faults : String → String → Bool)
    (s tn : String) :
    ∀ tables : List SourceTable,
      (tables.filterMap fun t =>
        if (decide (s = s) && decide (t.name = tn)) || faults s t.name then none
        else some (copiedTable s t))
      = ((tables.filter fun t => decide (t.name ≠ tn)).filterMap fun t =>
          if faults s t.name then none else some (copiedTable s t)) := by
  intro tables
  induction tables with
  | nil => rfl
  | cons t ts ih =>
    simp only [List.filterMap_cons, List.filter_cons]
    by_cases htn : t.name = tn
    · simp [htn]
      simpa using ih
    · by_cases hf : faults s t.name
      · simp [htn, hf]
        simpa using ih
      · simp [htn, hf]
        simpa using ih

theorem processStore_dropTable (faults : String → String → Bool)
    (s tn : String) (e : String × Option SourceDB) :
    processStore (fun d t => (decide (d = s) && decide (t = tn)) || faults d t) e
      = processStore faults (dropTable s tn e) := by
  obtain ⟨name, odb⟩ := e
  cases odb with
  | none =>
    unfold processStore dropTable
    by_cases hns : name = s <;> simp [hns]
  | some db =>
    by_cases hns : name = s
    · simp [processStore, dropTable, hns]
      simpa using filterMap_fault_filter faults s tn db.tables
    · simp [processStore, dropTable, hns]

/-- C8: per-store and per-table failures are isolated. With the warehouse
target unavailable the whole run aborts producing nothing; with it available
the run always completes: a missing source store contributes nothing and the
runs with and without that entry coincide, and adding a copy fault on one
table of one store yields exactly the run in which that table alone is
removed from that store — every other table of the store and every other
store is still processed. -/
theorem c8_failure_isolation (stores : List (String × Option SourceDB))
    (faults : String → String → Bool) :
    create_warehouse_database false stores faults = none
    ∧ (∃ ws, create_warehouse_database true stores faults = some ws)
    ∧ (∀ (pre post : List (String × Option SourceDB)) (n : String),
        create_warehouse_database true (pre ++ (n, none) :: post) faults
          = create_warehouse_database true (pre ++ post) faults)
    ∧ (∀ s tn : String,
        create_warehouse_database true stores
            (fun d t => (decide (d = s) && decide (t = tn)) || faults d t)
          = create_warehouse_database true (stores.map (dropTable s tn)) faults) := by
  refine ⟨rfl, ⟨_, rfl⟩, ?_, ?_⟩
  · intro pre post n
    unfold create_warehouse_database
    simp [List.flatMap_append, processStore]
  · intro s tn
    unfold create_warehouse_database
    simp only [if_pos rfl]
    rw [flatMap_congr_map _ _ (dropTable s tn) stores
      fun e _ => processStore_dropTable faults s tn e]

/-- C9: the rebuild is idempotent: because any pre-existing warehouse
artifact is deleted before each rebuild, running the consolidation twice in
succession over unchanged source stores yields identical table names and
per-table row counts (indeed an identical warehouse). -/
theorem c9_rebuild_idempotent (prior : Option (List WTable)) (setupOk : Bool)
    (stores : List (String × Option SourceDB))
    (faults : String → String → Bool) :
    ((runConsolidation (runConsolidation prior setupOk stores faults)
        setupOk stores faults).map fun ws => ws.map fun t => (t.name, t.rows.length))
      = ((runConsolidation prior setupOk stores faults).map
          fun ws => ws.map fun t => (t.name, t.rows.length))
    ∧ runConsolidation (runConsolidation prior setupOk stores faults)
        setupOk stores faults
      = runConsolidation prior setupOk stores faults :=
  ⟨rfl, rfl⟩

end Agri
